import Mathlib

/-!
Verification of the reservoir-sampling and profiling core of the
newrelic-python-agent repository.  The repository ships the unit tests of
`newrelic/core/stats_engine.py` (class `SampledDataSet`) and
`newrelic/core/profile_sessions.py` (classes `CallTree`, `ProfileSession`,
`ProfileSessionManager`), but not those two implementation files themselves,
so the definitions below are modelled from the specification's contracts
(sections 3, 4, 6, 7) and checked against the shipped unit tests.
-/

namespace NRAgent

/-- Modelled from the spec: a stored sample of `SampledDataSet`
(`newrelic/core/stats_engine.py`, absent from the sources).  A sample is an
opaque value plus a numeric priority and an internal random tiebreak drawn
once at insertion; values need not be orderable, priority and tiebreak
always are. -/
structure Sample (α : Type) where
  priority : ℚ
  tiebreak : ℕ
  value : α
deriving DecidableEq

/-- Modelled from the spec: the total order used by the reservoir's internal
min-structure — lexicographic on (priority, tiebreak), never touching the
carried value. -/
def Sample.keyLe {α : Type} (a b : Sample α) : Bool :=
  decide (a.priority < b.priority ∨
    (a.priority = b.priority ∧ a.tiebreak ≤ b.tiebreak))

/-- Modelled from the spec: popping the minimum of the internal bounded
min-structure (the heap root): returns the (priority, tiebreak)-least sample
together with the remaining samples. -/
def popMin {α : Type} : List (Sample α) → Option (Sample α × List (Sample α))
  | [] => none
  | s :: rest =>
    match popMin rest with
    | none => some (s, [])
    | some (m, rest') =>
      if s.keyLe m then some (s, rest) else some (m, s :: rest')

/-- Modelled from the spec: `SampledDataSet` of
`newrelic/core/stats_engine.py` (absent from the sources): a fixed
`capacity`, the monotonic count `num_seen` of all `add` calls ever made, and
the internal bounded min-structure `pq` of at most `capacity` samples. -/
structure SampledDataSet (α : Type) where
  capacity : ℕ
  num_seen : ℕ
  pq : List (Sample α)
deriving DecidableEq

/-- Modelled from the spec and the unit test `test_empty_set`: the
constructor `SampledDataSet(capacity=100)` — empty store, zero `num_seen`,
default capacity 100. -/
def SampledDataSet.new (α : Type) (capacity : ℕ := 100) : SampledDataSet α :=
  { capacity := capacity, num_seen := 0, pq := [] }

/-- Number of currently stored samples (`num_samples` property). -/
def SampledDataSet.num_samples {α : Type} (r : SampledDataSet α) : ℕ :=
  r.pq.length

/-- Enumeration of the stored sample values (`list(instance)`). -/
def SampledDataSet.samples {α : Type} (r : SampledDataSet α) : List α :=
  r.pq.map (·.value)

/-- Modelled from the spec: `SampledDataSet.add`.  Increments `num_seen`
unconditionally; under capacity it inserts unconditionally; at capacity it
compares the new priority against the minimum stored sample's priority and,
if strictly greater, evicts that minimum and inserts, otherwise drops.  With
`capacity = 0` the store is empty and stays empty, so the sample is always
dropped. -/
def SampledDataSet.add {α : Type} (r : SampledDataSet α) (s : Sample α) :
    SampledDataSet α :=
  if r.pq.length < r.capacity then
    { r with num_seen := r.num_seen + 1, pq := s :: r.pq }
  else
    match popMin r.pq with
    | none => { r with num_seen := r.num_seen + 1 }
    | some (m, rest) =>
      if m.priority < s.priority then
        { r with num_seen := r.num_seen + 1, pq := s :: rest }
      else
        { r with num_seen := r.num_seen + 1 }

/-- Modelled from the spec: `SampledDataSet.should_sample` — pure predicate,
true when a hypothetical sample with this priority would currently be
retained: under capacity always, at capacity exactly when the priority
strictly exceeds the minimum stored priority (false for an empty
zero-capacity store, which retains nothing). -/
def SampledDataSet.should_sample {α : Type} (r : SampledDataSet α)
    (p : ℚ) : Bool :=
  if r.pq.length < r.capacity then true
  else
    match popMin r.pq with
    | none => false
    | some (m, _) => decide (m.priority < p)

/-- Replay a list of samples into a reservoir through `add`. -/
def SampledDataSet.addAll {α : Type} (r : SampledDataSet α)
    (l : List (Sample α)) : SampledDataSet α :=
  l.foldl SampledDataSet.add r

/-- Modelled from the spec: `SampledDataSet.merge` — replays every sample
held by `other` through the same admission rule, then accounts
`other.num_seen` (total observations, not merely the retained count) into
`self.num_seen`. -/
def SampledDataSet.merge {α : Type} (r other : SampledDataSet α) :
    SampledDataSet α :=
  let folded := r.addAll other.pq
  { folded with num_seen := r.num_seen + other.num_seen }

/-- Number of samples in `l` whose priority strictly exceeds `p`. -/
def countHigher {α : Type} (l : List (Sample α)) (p : ℚ) : ℕ :=
  (l.filter (fun t => decide (p < t.priority))).length

/-- Pairwise-distinct-priorities predicate on a list of samples. -/
def DistinctPrios {α : Type} (l : List (Sample α)) : Prop :=
  l.Pairwise (fun a b => a.priority ≠ b.priority)

instance {α : Type} (l : List (Sample α)) : Decidable (DistinctPrios l) := by
  unfold DistinctPrios; infer_instance

/-- The inductive invariant tying a reservoir to the sequence `ss` of all
samples ever offered to it: the store holds `min |ss| capacity` samples, all
of them from `ss`, with pairwise distinct priorities, and every offered
sample not currently stored has strictly smaller priority than every stored
one. -/
def StoreInv {α : Type} (ss : List (Sample α)) (r : SampledDataSet α) : Prop :=
  r.pq.length = min ss.length r.capacity ∧
  (∀ x ∈ r.pq, x ∈ ss) ∧
  DistinctPrios r.pq ∧
  (∀ x ∈ ss, x ∉ r.pq → ∀ y ∈ r.pq, x.priority < y.priority)

/-- A stack frame identity as delivered by the stack-trace provider: a
`(filename, func_name, func_line, exec_line)` tuple
(`newrelic/core/profile_sessions.py` is absent from the sources; modelled
from the spec and the shipped unit tests). -/
structure MethodData where
  filename : String
  func_name : String
  func_line : ℕ
  exec_line : ℕ
deriving DecidableEq

/-- Modelled from the spec: the label rendered into the flattened call tree
— `"@<func>#<line>"` when the call-site line equals the function-definition
line (recursive re-entry), `"<func>#<line>"` otherwise.  The filename is
never part of the label. -/
def MethodData.label (m : MethodData) : String :=
  if m.func_line = m.exec_line then
    "@" ++ m.func_name ++ "#" ++ toString m.func_line
  else
    m.func_name ++ "#" ++ toString m.func_line

/-- Modelled from the spec: `CallTree` of
`newrelic/core/profile_sessions.py` — a frame identity, a call count and the
child subtrees kept in first-creation order. -/
inductive CallTree where
  | node (method : MethodData) (call_count : ℕ) (children : List CallTree)

/-- Root frame identity of a call tree. -/
def CallTree.root : CallTree → MethodData
  | .node m _ _ => m

/-- Call count of a call tree's root node. -/
def CallTree.count : CallTree → ℕ
  | .node _ cc _ => cc

/-- Modelled from the spec: a freshly constructed `CallTree` — `call_count`
starts at 0, no children. -/
def CallTree.new (m : MethodData) : CallTree :=
  .node m 0 []

/-- Scan the sibling trees for one rooted at `m`: bump its count and apply
the continuation `f` (merging the rest of the trace) to its children, or
append a fresh single-call node with children `f []` when no sibling
matches. -/
def mergeSibs (m : MethodData) (f : List CallTree → List CallTree) :
    List CallTree → List CallTree
  | [] => [CallTree.node m 1 (f [])]
  | CallTree.node m' cc gch :: ch =>
    if m' = m then CallTree.node m' (cc + 1) (f gch) :: ch
    else CallTree.node m' cc gch :: mergeSibs m f ch

/-- Modelled from the spec: merging the remainder of a stack trace into a
list of sibling trees — find-or-create the sibling whose root matches the
next frame, bump its count, and recurse into its children with the rest of
the trace. -/
def mergeTrace : List MethodData → List CallTree → List CallTree
  | [], ch => ch
  | m :: rest, ch => mergeSibs m (mergeTrace rest) ch

/-- Modelled from the spec: `CallTree.merge_stack` — increments the root's
`call_count` (the root matches `trace[0]` by construction) and merges the
rest of the trace into the children. -/
def CallTree.merge_stack : CallTree → List MethodData → CallTree
  | t, [] => t
  | .node m cc ch, _ :: rest => .node m (cc + 1) (mergeTrace rest ch)

/-- The fresh branch created when a trace diverges from all existing
siblings: a chain of single-call nodes. -/
def chainOf : List MethodData → List CallTree
  | [] => []
  | m :: rest => [CallTree.node m 1 (chainOf rest)]

/-- JSON values, as produced by the profiler's serializer. -/
inductive JVal where
  | jnum : ℤ → JVal
  | jstr : String → JVal
  | jarr : List JVal → JVal
  | jobj : List (String × JVal) → JVal

mutual
/-- Modelled from the spec: `CallTree.flatten` — renders
`[[filename, label, exec_line], call_count, 0, [flattened children...]]`
with children in first-creation order; the third slot (exclusive time) is
always 0 in this core. -/
def CallTree.flatten : CallTree → JVal
  | .node m cc ch =>
    .jarr [.jarr [.jstr m.filename, .jstr m.label, .jnum m.exec_line],
           .jnum cc, .jnum 0, .jarr (CallTree.flattenList ch)]

/-- Flatten a list of call trees in order. -/
def CallTree.flattenList : List CallTree → List JVal
  | [] => []
  | t :: ts => CallTree.flatten t :: CallTree.flattenList ts
end

mutual
/-- Modelled from the spec: compact JSON serialization (Python
`json.dumps(..., separators=(",", ":"))`) of the profile tree. -/
def JVal.serialize : JVal → String
  | .jnum n => toString n
  | .jstr s => "\"" ++ s ++ "\""
  | .jarr l => "[" ++ String.intercalate "," (JVal.serializeList l) ++ "]"
  | .jobj l => "\x7b" ++ String.intercalate "," (JVal.serializeObj l) ++ "\x7d"

/-- Serialize the elements of a JSON array. -/
def JVal.serializeList : List JVal → List String
  | [] => []
  | x :: xs => JVal.serialize x :: JVal.serializeList xs

/-- Serialize the members of a JSON object. -/
def JVal.serializeObj : List (String × JVal) → List String
  | [] => []
  | (k, v) :: xs => ("\"" ++ k ++ "\":" ++ JVal.serialize v) :: JVal.serializeObj xs
end

/-- Session lifecycle states: RUNNING (initial) and FINISHED (terminal). -/
inductive SessionState where
  | RUNNING
  | FINISHED
deriving DecidableEq

/-- Modelled from the spec: `ProfileSession` of
`newrelic/core/profile_sessions.py` — caller-supplied identifier and
instants, a RUNNING/FINISHED state, an xray passthrough value, and the
named call buckets, each mapping root identities to call trees (kept here
as trees in first-creation order, roots being unique per bucket by
construction). -/
structure ProfileSession where
  profile_id : ℤ
  start_time : ℚ
  stop_time : ℚ
  xray_id : Option ℤ
  state : SessionState
  call_buckets : List (String × List CallTree)

/-- Modelled from the spec: the fixed enumerated set of recognized bucket
names, pre-created empty at session construction ("REQUEST" holds
in-transaction samples). -/
def initialBuckets : List (String × List CallTree) :=
  [("REQUEST", []), ("AGENT", []), ("BACKGROUND", []), ("OTHER", [])]

/-- Modelled from the spec: the `ProfileSession` constructor — created
RUNNING with the caller-supplied identifier and stop instant, the current
instant as `start_time` (passed explicitly here since the clock is an
external collaborator), and an optional xray passthrough. -/
def ProfileSession.new (profile_id : ℤ) (stop_time : ℚ) (start_time : ℚ)
    (xray_id : Option ℤ := none) : ProfileSession :=
  { profile_id := profile_id, start_time := start_time,
    stop_time := stop_time, xray_id := xray_id,
    state := SessionState.RUNNING, call_buckets := initialBuckets }

/-- Look a bucket up by name. -/
def lookupBucket : List (String × List CallTree) → String →
    Option (List CallTree)
  | [], _ => none
  | (k, v) :: bs, name => if k = name then some v else lookupBucket bs name

/-- Replace the contents of the named bucket, preserving bucket order. -/
def updateBucket : List (String × List CallTree) → String →
    List CallTree → List (String × List CallTree)
  | [], _, _ => []
  | (k, v) :: bs, name, trees =>
    if k = name then (k, trees) :: bs
    else (k, v) :: updateBucket bs name trees

/-- Modelled from the spec: `ProfileSession.update_call_tree` — returns
false leaving the session untouched when the bucket name is unrecognized;
otherwise finds-or-creates the tree rooted at the trace head inside that
bucket, merges the trace into it, and returns true.  The session state is
never consulted. -/
def ProfileSession.update_call_tree (s : ProfileSession) (bucket : String)
    (trace : List MethodData) : Bool × ProfileSession :=
  match lookupBucket s.call_buckets bucket with
  | none => (false, s)
  | some trees =>
    (true, { s with call_buckets :=
        updateBucket s.call_buckets bucket (mergeTrace trace trees) })

/-- The non-empty buckets, rendered as JSON object members in bucket
order: bucket name paired with the array of flattened root trees. -/
def flatBuckets (bs : List (String × List CallTree)) :
    List (String × JVal) :=
  (bs.filter (fun b => !b.2.isEmpty)).map
    (fun b => (b.1, JVal.jarr (CallTree.flattenList b.2)))

/-- All root identities across all buckets. -/
def allRoots (bs : List (String × List CallTree)) : List MethodData :=
  bs.foldr (fun b acc => b.2.map CallTree.root ++ acc) []

/-- Modelled from the spec: the reported thread count — the number of
distinct root frame identities observed across all buckets. -/
def threadCount (bs : List (String × List CallTree)) : ℕ :=
  (allRoots bs).dedup.length

/-- The positional `profile_data` wire record.  The transport blob is
deflate-compressed, base64-encoded JSON produced by external codecs (zlib
and base64, bijective on their domains and not part of this repository), so
the record carries the decoded JSON text `profile_json` here; "the blob
decodes to s" is rendered as `profile_json = s`. -/
structure ProfileRecord where
  profile_id : ℤ
  start_time : ℚ
  stop_time : ℚ
  sample_count : ℕ
  profile_json : String
  thread_count : ℕ
  non_runnable_thread_count : ℕ
  xray_id : Option ℤ
deriving DecidableEq

/-- Modelled from the spec: `ProfileSession.profile_data` — no data while
RUNNING; once FINISHED, a single record carrying the caller-supplied
identifier and instants, a reserved sample count of 0, the serialized
profile tree of the non-empty buckets (the empty-object text for a session
with no samples), the thread count, an always-zero non-runnable thread
count, and the xray passthrough. -/
def ProfileSession.profile_data (s : ProfileSession) : Option ProfileRecord :=
  match s.state with
  | SessionState.RUNNING => none
  | SessionState.FINISHED => some {
      profile_id := s.profile_id, start_time := s.start_time,
      stop_time := s.stop_time, sample_count := 0,
      profile_json := JVal.serialize (JVal.jobj (flatBuckets s.call_buckets)),
      thread_count := threadCount s.call_buckets,
      non_runnable_thread_count := 0, xray_id := s.xray_id }

/-- Transition a session to its terminal FINISHED state. -/
def finishSession (s : ProfileSession) : ProfileSession :=
  { s with state := SessionState.FINISHED }

/-- Modelled from the spec: `ProfileSessionManager` — at most one full
profile session plus the per-application queues of finished, undrained
sessions. -/
structure ProfileSessionManager where
  full_profile_session : Option ProfileSession
  finished_sessions : List (String × List ProfileSession)

/-- The manager a process starts with: no full session, no finished
sessions. -/
def ProfileSessionManager.new : ProfileSessionManager :=
  { full_profile_session := none, finished_sessions := [] }

/-- Queued finished sessions of an application (empty when none). -/
def lookupFinished : List (String × List ProfileSession) → String →
    List ProfileSession
  | [], _ => []
  | (k, v) :: fs, app => if k = app then v else lookupFinished fs app

/-- Append a finished session to an application's queue, creating the queue
if absent. -/
def appendFinished : List (String × List ProfileSession) → String →
    ProfileSession → List (String × List ProfileSession)
  | [], app, s => [(app, [s])]
  | (k, v) :: fs, app, s =>
    if k = app then (k, v ++ [s]) :: fs
    else (k, v) :: appendFinished fs app s

/-- Drop an application's queue entirely (drain semantics). -/
def removeFinished : List (String × List ProfileSession) → String →
    List (String × List ProfileSession)
  | [], _ => []
  | (k, v) :: fs, app =>
    if k = app then removeFinished fs app
    else (k, v) :: removeFinished fs app

/-- Modelled from the spec: `ProfileSessionManager.start_profile_session` —
false without side effects while a full session is present (it is RUNNING
by the lifecycle invariant), otherwise store a freshly constructed RUNNING
session and return true. -/
def ProfileSessionManager.start_profile_session (m : ProfileSessionManager)
    (_app_name : String) (profile_id : ℤ) (stop_time now : ℚ) :
    Bool × ProfileSessionManager :=
  match m.full_profile_session with
  | some _ => (false, m)
  | none =>
    let s := ProfileSession.new profile_id stop_time now
    (true, { m with full_profile_session := some s })

/-- Modelled from the spec: `ProfileSessionManager.stop_profile_session` —
a no-op without a full session; otherwise mark it FINISHED, append it to
the application's finished queue and clear the slot. -/
def ProfileSessionManager.stop_profile_session (m : ProfileSessionManager)
    (app_name : String) : ProfileSessionManager :=
  match m.full_profile_session with
  | none => m
  | some s =>
    { full_profile_session := none,
      finished_sessions :=
        appendFinished m.finished_sessions app_name (finishSession s) }

/-- Modelled from the spec: `ProfileSessionManager.profile_data` — the
records of the application's queued finished sessions, which are removed
from the queue (drain semantics). -/
def ProfileSessionManager.profile_data (m : ProfileSessionManager)
    (app_name : String) : List ProfileRecord × ProfileSessionManager :=
  ((lookupFinished m.finished_sessions app_name).filterMap
      ProfileSession.profile_data,
   { m with finished_sessions :=
       removeFinished m.finished_sessions app_name })

/-- The four frame identities used by the shipped unit tests. -/
def method_a : MethodData := ⟨"file_a", "method_a", 10, 10⟩

/-- Second test frame identity. -/
def method_b : MethodData := ⟨"file_b", "method_b", 20, 20⟩

/-- Third test frame identity. -/
def method_c : MethodData := ⟨"file_c", "method_c", 25, 25⟩

/-- Fourth test frame identity. -/
def method_d : MethodData := ⟨"file_d", "method_d", 15, 15⟩

theorem Sample.keyLe_iff {α : Type} (a b : Sample α) :
    a.keyLe b = true ↔ (a.priority < b.priority ∨
      (a.priority = b.priority ∧ a.tiebreak ≤ b.tiebreak)) := by
  simp [Sample.keyLe]

theorem Sample.keyLe_refl {α : Type} (a : Sample α) : a.keyLe a = true := by
  simp [Sample.keyLe]

theorem Sample.keyLe_total {α : Type} (a b : Sample α)
    (h : ¬ a.keyLe b = true) : b.keyLe a = true := by
  rw [Sample.keyLe_iff] at *
  rcases lt_trichotomy a.priority b.priority with h1 | h1 | h1
  · exact absurd (Or.inl h1) h
  · right
    refine ⟨h1.symm, ?_⟩
    by_contra h2
    exact h (Or.inr ⟨h1, le_of_not_le h2⟩)
  · exact Or.inl h1

theorem Sample.keyLe_trans {α : Type} (a b c : Sample α)
    (h1 : a.keyLe b = true) (h2 : b.keyLe c = true) : a.keyLe c = true := by
  rw [Sample.keyLe_iff] at *
  rcases h1 with h1 | ⟨h1, h1t⟩ <;> rcases h2 with h2 | ⟨h2, h2t⟩
  · exact Or.inl (h1.trans h2)
  · exact Or.inl (h2 ▸ h1)
  · exact Or.inl (h1 ▸ h2)
  · exact Or.inr ⟨h1.trans h2, h1t.trans h2t⟩

theorem Sample.keyLe_priority_le {α : Type} (a b : Sample α)
    (h : a.keyLe b = true) : a.priority ≤ b.priority := by
  rw [Sample.keyLe_iff] at h
  rcases h with h | ⟨h, _⟩
  · exact le_of_lt h
  · exact le_of_eq h

theorem popMin_eq_none_iff {α : Type} (l : List (Sample α)) :
    popMin l = none ↔ l = [] := by
  cases l with
  | nil => simp [popMin]
  | cons s t =>
    simp only [popMin]
    cases popMin t with
    | none => simp
    | some p => obtain ⟨m, rest⟩ := p; dsimp only; split <;> simp

theorem popMin_perm {α : Type} :
    ∀ {l : List (Sample α)} {m : Sample α} {rest : List (Sample α)},
      popMin l = some (m, rest) → l.Perm (m :: rest) := by
  intro l
  induction l with
  | nil => intro m rest h; simp [popMin] at h
  | cons s t ih =>
    intro m rest h
    simp only [popMin] at h
    cases ht : popMin t with
    | none =>
      rw [ht] at h
      simp only [Option.some.injEq, Prod.mk.injEq] at h
      obtain ⟨rfl, rfl⟩ := h
      rw [(popMin_eq_none_iff t).mp ht]
    | some p =>
      obtain ⟨m', rest'⟩ := p
      rw [ht] at h
      dsimp only at h
      split at h
      · simp only [Option.some.injEq, Prod.mk.injEq] at h
        obtain ⟨rfl, rfl⟩ := h
        exact List.Perm.refl _
      · simp only [Option.some.injEq, Prod.mk.injEq] at h
        obtain ⟨rfl, rfl⟩ := h
        exact ((ih ht).cons s).trans (List.Perm.swap m' s rest')

theorem popMin_le {α : Type} :
    ∀ {l : List (Sample α)} {m : Sample α} {rest : List (Sample α)},
      popMin l = some (m, rest) → ∀ x ∈ l, m.keyLe x = true := by
  intro l
  induction l with
  | nil => intro m rest h; simp [popMin] at h
  | cons s t ih =>
    intro m rest h x hx
    simp only [popMin] at h
    cases ht : popMin t with
    | none =>
      rw [ht] at h
      simp only [Option.some.injEq, Prod.mk.injEq] at h
      obtain ⟨rfl, rfl⟩ := h
      rw [(popMin_eq_none_iff t).mp ht] at hx
      rcases List.mem_singleton.mp hx with rfl
      exact Sample.keyLe_refl x
    | some p =>
      obtain ⟨m', rest'⟩ := p
      rw [ht] at h
      dsimp only at h
      split at h <;>
        simp only [Option.some.injEq, Prod.mk.injEq] at h <;>
        obtain ⟨rfl, rfl⟩ := h
      · rcases List.mem_cons.mp hx with rfl | hx
        · exact Sample.keyLe_refl x
        · next hk => exact Sample.keyLe_trans _ _ _ (by exact hk) (ih ht x hx)
      · rcases List.mem_cons.mp hx with rfl | hx
        · next hk => exact Sample.keyLe_total _ _ (by simp [hk])
        · exact ih ht x hx

theorem popMin_length {α : Type} {l : List (Sample α)} {m : Sample α}
    {rest : List (Sample α)} (h : popMin l = some (m, rest)) :
    rest.length + 1 = l.length := by
  have := (popMin_perm h).length_eq
  simpa using this.symm

theorem add_capacity {α : Type} (r : SampledDataSet α) (s : Sample α) :
    (r.add s).capacity = r.capacity := by
  unfold SampledDataSet.add
  split
  · rfl
  · cases popMin r.pq with
    | none => rfl
    | some p => obtain ⟨m, rest⟩ := p; dsimp only; split <;> rfl

theorem add_num_seen {α : Type} (r : SampledDataSet α) (s : Sample α) :
    (r.add s).num_seen = r.num_seen + 1 := by
  unfold SampledDataSet.add
  split
  · rfl
  · cases popMin r.pq with
    | none => rfl
    | some p => obtain ⟨m, rest⟩ := p; dsimp only; split <;> rfl

theorem add_pq_length {α : Type} (r : SampledDataSet α) (s : Sample α) :
    (r.add s).pq.length =
      if r.pq.length < r.capacity then r.pq.length + 1 else r.pq.length := by
  unfold SampledDataSet.add
  split
  · next h => simp [h]
  · next h =>
    cases hp : popMin r.pq with
    | none => rfl
    | some p =>
      obtain ⟨m, rest⟩ := p
      dsimp only
      split
      · simpa using popMin_length hp
      · rfl

theorem addAll_append {α : Type} (r : SampledDataSet α)
    (l : List (Sample α)) (s : Sample α) :
    r.addAll (l ++ [s]) = (r.addAll l).add s := by
  simp [SampledDataSet.addAll, List.foldl_append]

theorem addAll_capacity {α : Type} (r : SampledDataSet α)
    (l : List (Sample α)) : (r.addAll l).capacity = r.capacity := by
  induction l using List.reverseRecOn with
  | nil => rfl
  | append_singleton l s ih => rw [addAll_append, add_capacity, ih]

theorem addAll_num_seen {α : Type} (r : SampledDataSet α)
    (l : List (Sample α)) : (r.addAll l).num_seen = r.num_seen + l.length := by
  induction l using List.reverseRecOn with
  | nil => rfl
  | append_singleton l s ih =>
    rw [addAll_append, add_num_seen, ih]
    simp only [List.length_append, List.length_singleton, List.length_cons, List.length_nil]
    omega

theorem add_pq_length_le {α : Type} (r : SampledDataSet α) (s : Sample α)
    (h : r.pq.length ≤ r.capacity) : (r.add s).pq.length ≤ r.capacity := by
  rw [add_pq_length]
  split <;> omega

theorem addAll_pq_length {α : Type} (r : SampledDataSet α)
    (l : List (Sample α)) (h : r.pq.length ≤ r.capacity) :
    (r.addAll l).pq.length = min (r.pq.length + l.length) r.capacity := by
  induction l using List.reverseRecOn with
  | nil => simp [SampledDataSet.addAll]; omega
  | append_singleton l s ih =>
    rw [addAll_append, add_pq_length, ih, addAll_capacity]
    simp only [List.length_append, List.length_singleton, List.length_cons, List.length_nil]
    split <;> omega

theorem nodup_of_distinctPrios {α : Type} {l : List (Sample α)}
    (h : DistinctPrios l) : l.Nodup := by
  unfold DistinctPrios at h
  exact h.imp (fun hab => fun he => hab (he ▸ rfl))

theorem perm_of_subset_nodup_length {α : Type} {l₁ l₂ : List α}
    (hn : l₁.Nodup) (hs : l₁ ⊆ l₂) (hl : l₂.length ≤ l₁.length) :
    l₁.Perm l₂ :=
  (List.subperm_of_subset hn hs).perm_of_length_le hl

theorem StoreInv_new (α : Type) (c : ℕ) :
    StoreInv [] (SampledDataSet.new α c) := by
  refine ⟨by simp [SampledDataSet.new], ?_, ?_, ?_⟩ <;>
    simp [SampledDataSet.new, DistinctPrios]

theorem StoreInv_add {α : Type} {ss : List (Sample α)} {r : SampledDataSet α}
    (s : Sample α) (hinv : StoreInv ss r)
    (hfresh : ∀ t ∈ ss, t.priority ≠ s.priority) :
    StoreInv (ss ++ [s]) (r.add s) := by
  obtain ⟨hlen, hsub, hdp, hord⟩ := hinv
  have hpqnodup : r.pq.Nodup := nodup_of_distinctPrios hdp
  by_cases hc : r.pq.length < r.capacity
  · -- under capacity: unconditional insert, and everything seen is stored
    have hadd : r.add s =
        { r with num_seen := r.num_seen + 1, pq := s :: r.pq } := by
      unfold SampledDataSet.add; rw [if_pos hc]
    have hlss : r.pq.length = ss.length := by omega
    have hall : ∀ x ∈ ss, x ∈ r.pq := fun x hx =>
      (perm_of_subset_nodup_length hpqnodup hsub (le_of_eq hlss.symm)).mem_iff.mpr hx
    rw [hadd]
    refine ⟨?_, ?_, ?_, ?_⟩
    · simp only [List.length_cons, List.length_append, List.length_singleton, List.length_nil]
      omega
    · intro x hx
      rcases List.mem_cons.mp hx with rfl | hx
      · exact List.mem_append_right _ (List.mem_singleton_self x)
      · exact List.mem_append_left _ (hsub x hx)
    · exact List.pairwise_cons.mpr
        ⟨fun y hy => (hfresh y (hsub y hy)).symm, hdp⟩
    · intro x hx hnx y _
      exfalso
      rcases List.mem_append.mp hx with hx | hx
      · exact hnx (List.mem_cons_of_mem s (hall x hx))
      · rcases List.mem_singleton.mp hx with rfl
        exact hnx (List.mem_cons_self x r.pq)
  · -- at capacity
    have hcap : r.pq.length = r.capacity ∧ r.capacity ≤ ss.length := by omega
    cases hpm : popMin r.pq with
    | none =>
      have hpq : r.pq = [] := (popMin_eq_none_iff r.pq).mp hpm
      have hadd : r.add s = { r with num_seen := r.num_seen + 1 } := by
        unfold SampledDataSet.add; rw [if_neg hc, hpm]
      rw [hadd]
      refine ⟨?_, ?_, hdp, ?_⟩
      · simp only [List.length_append, List.length_singleton, List.length_cons, List.length_nil]
        omega
      · exact fun x hx => List.mem_append_left _ (hsub x hx)
      · intro x _ _ y hy
        rw [hpq] at hy
        exact absurd hy (List.not_mem_nil y)
    | some p =>
      obtain ⟨m, rest⟩ := p
      have hperm : r.pq.Perm (m :: rest) := popMin_perm hpm
      have hmin : ∀ x ∈ r.pq, m.keyLe x = true := popMin_le hpm
      have hm : m ∈ r.pq := hperm.mem_iff.mpr (List.mem_cons_self m rest)
      have hpm2 : (m :: rest).Pairwise
          (fun a b : Sample α => a.priority ≠ b.priority) :=
        (hperm.pairwise_iff (fun hab => hab.symm)).mp hdp
      have hrest : ∀ y ∈ rest, y ∈ r.pq := fun y hy =>
        hperm.mem_iff.mpr (List.mem_cons_of_mem m hy)
      have hrestlen : rest.length + 1 = r.pq.length := popMin_length hpm
      by_cases hms : m.priority < s.priority
      · -- evict the minimum, insert the new sample
        have hadd : r.add s =
            { r with num_seen := r.num_seen + 1, pq := s :: rest } := by
          unfold SampledDataSet.add; rw [if_neg hc, hpm]; dsimp only
          rw [if_pos hms]
        rw [hadd]
        refine ⟨?_, ?_, ?_, ?_⟩
        · simp only [List.length_cons, List.length_append,
            List.length_singleton, List.length_nil]
          omega
        · intro x hx
          rcases List.mem_cons.mp hx with rfl | hx
          · exact List.mem_append_right _ (List.mem_singleton_self x)
          · exact List.mem_append_left _ (hsub x (hrest x hx))
        · refine List.pairwise_cons.mpr
            ⟨fun y hy => (hfresh y (hsub y (hrest y hy))).symm, ?_⟩
          exact (List.pairwise_cons.mp hpm2).2
        · intro x hx hnx y hy
          rcases List.mem_append.mp hx with hx | hx
          · -- an old sample that is not retained afterwards
            have hxnr : x ∉ rest := fun hxr =>
              hnx (List.mem_cons_of_mem s hxr)
            by_cases hxpq : x ∈ r.pq
            · -- it can only be the evicted minimum
              have hxm : x = m := by
                rcases List.mem_cons.mp (hperm.mem_iff.mp hxpq) with h | h
                · exact h
                · exact absurd h hxnr
              subst hxm
              rcases List.mem_cons.mp hy with hys | hy
              · rw [hys]; exact hms
              · exact lt_of_le_of_ne
                  (Sample.keyLe_priority_le _ _ (hmin y (hrest y hy)))
                  ((List.pairwise_cons.mp hpm2).1 y hy)
            · -- it was dropped before this add
              rcases List.mem_cons.mp hy with hys | hy
              · rw [hys]; exact lt_trans (hord x hx hxpq m hm) hms
              · exact hord x hx hxpq y (hrest y hy)
          · rcases List.mem_singleton.mp hx with hxs
            rw [hxs] at hnx
            exact absurd (List.mem_cons_self s rest) hnx
      · -- the new sample is dropped
        have hadd : r.add s = { r with num_seen := r.num_seen + 1 } := by
          unfold SampledDataSet.add; rw [if_neg hc, hpm]; dsimp only
          rw [if_neg hms]
        have hsm : s.priority < m.priority :=
          lt_of_le_of_ne (le_of_not_lt hms)
            (fun he => hfresh m (hsub m hm) he.symm)
        rw [hadd]
        refine ⟨?_, fun x hx => List.mem_append_left _ (hsub x hx), hdp, ?_⟩
        · simp only [List.length_append, List.length_singleton, List.length_cons, List.length_nil]
          omega
        · intro x hx hnx y hy
          rcases List.mem_append.mp hx with hx | hx
          · exact hord x hx hnx y hy
          · rcases List.mem_singleton.mp hx with hxs
            rw [hxs]
            exact lt_of_lt_of_le hsm
              (Sample.keyLe_priority_le _ _ (hmin y hy))

theorem addAll_StoreInv {α : Type} (c : ℕ) (ss : List (Sample α))
    (hss : DistinctPrios ss) :
    StoreInv ss ((SampledDataSet.new α c).addAll ss) := by
  induction ss using List.reverseRecOn with
  | nil => exact StoreInv_new α c
  | append_singleton l s ih =>
    unfold DistinctPrios at hss
    rw [List.pairwise_append] at hss
    obtain ⟨h1, _, h3⟩ := hss
    rw [addAll_append]
    exact StoreInv_add s (ih h1)
      (fun t ht => h3 t ht s (List.mem_singleton_self s))

theorem store_mem_iff {α : Type} {ss : List (Sample α)}
    {r : SampledDataSet α} (hss : DistinctPrios ss) (hinv : StoreInv ss r)
    (x : Sample α) :
    x ∈ r.pq ↔ (x ∈ ss ∧ countHigher ss x.priority < r.capacity) := by
  obtain ⟨hlen, hsub, hdp, hord⟩ := hinv
  have hssnodup : ss.Nodup := nodup_of_distinctPrios hss
  have hpqnodup : r.pq.Nodup := nodup_of_distinctPrios hdp
  have hcount : countHigher ss x.priority =
      (ss.filter (fun t => decide (x.priority < t.priority))).length := rfl
  constructor
  · intro hx
    refine ⟨hsub x hx, ?_⟩
    have hfsub : ∀ t ∈ ss.filter (fun t => decide (x.priority < t.priority)),
        t ∈ r.pq := by
      intro t ht
      rw [List.mem_filter, decide_eq_true_eq] at ht
      by_contra htn
      exact lt_asymm ht.2 (hord t ht.1 htn x hx)
    have hxf : x ∉ ss.filter (fun t => decide (x.priority < t.priority)) := by
      rw [List.mem_filter, decide_eq_true_eq]
      exact fun h => lt_irrefl _ h.2
    have hcons :
        (x :: ss.filter (fun t => decide (x.priority < t.priority))).Nodup :=
      List.nodup_cons.mpr ⟨hxf, hssnodup.filter _⟩
    have hsubpq :
        (x :: ss.filter (fun t => decide (x.priority < t.priority))) ⊆ r.pq :=
      List.cons_subset.mpr ⟨hx, hfsub⟩
    have hle := (List.subperm_of_subset hcons hsubpq).length_le
    simp only [List.length_cons] at hle
    omega
  · rintro ⟨hxss, hcnt⟩
    by_contra hx
    have hpqf : r.pq ⊆ ss.filter (fun t => decide (x.priority < t.priority)) := by
      intro y hy
      rw [List.mem_filter, decide_eq_true_eq]
      exact ⟨hsub y hy, hord x hxss hx y hy⟩
    have h1 : r.pq.length ≤
        (ss.filter (fun t => decide (x.priority < t.priority))).length :=
      (List.subperm_of_subset hpqnodup hpqf).length_le
    have h3 : ss.length ≤ r.pq.length := by omega
    exact hx ((perm_of_subset_nodup_length hpqnodup hsub h3).mem_iff.mpr hxss)

theorem addAll_pq_under_capacity {α : Type} (r : SampledDataSet α)
    (l : List (Sample α)) (h : r.pq.length + l.length ≤ r.capacity) :
    (r.addAll l).pq = l.reverse ++ r.pq := by
  induction l using List.reverseRecOn with
  | nil => simp [SampledDataSet.addAll]
  | append_singleton l s ih =>
    have hl : r.pq.length + l.length ≤ r.capacity := by
      simp at h; omega
    rw [addAll_append]
    have hlen : (r.addAll l).pq.length < (r.addAll l).capacity := by
      rw [addAll_pq_length r l (by omega), addAll_capacity]
      simp at h ⊢; omega
    unfold SampledDataSet.add
    rw [if_pos hlen, ih hl]
    simp

theorem merge_num_seen {α : Type} (a b : SampledDataSet α) :
    (a.merge b).num_seen = a.num_seen + b.num_seen := rfl

theorem merge_pq {α : Type} (a b : SampledDataSet α) :
    (a.merge b).pq = (a.addAll b.pq).pq := rfl

theorem merge_capacity {α : Type} (a b : SampledDataSet α) :
    (a.merge b).capacity = a.capacity := addAll_capacity a b.pq

/-- Claim C1 (amended): for every capacity `c ≥ 0` and every finite
sequence of add calls into a fresh reservoir, `num_seen` equals the total
number of add calls (dropped ones and the `c = 0` case included) and the
number of stored samples never exceeds `c`; when the offered priorities are
pairwise distinct — the almost-sure case for the uniform random priority
draw — once at capacity the stored set is exactly the `c` highest-priority
samples seen so far: a sample is stored iff fewer than `c` of the seen
samples carry a strictly higher priority.  Moreover a single add at
capacity with priority strictly above the stored minimum evicts that
minimum and retains the new sample, while one with strictly lower priority
is dropped.  (At an exact priority tie with the stored minimum, admission
compares priorities only and keeps the incumbent, so the stored set is not
in general the top `c` by (priority, tiebreak) — whence the distinctness
hypothesis.) -/
theorem claim_C1 {α : Type} (c : ℕ) (ss : List (Sample α)) :
    ((SampledDataSet.new α c).addAll ss).num_seen = ss.length ∧
    ((SampledDataSet.new α c).addAll ss).num_samples ≤ c ∧
    (DistinctPrios ss →
      ∀ x, x ∈ ((SampledDataSet.new α c).addAll ss).pq ↔
        (x ∈ ss ∧ countHigher ss x.priority < c)) ∧
    (∀ (r : SampledDataSet α) (s m : Sample α) (rest : List (Sample α)),
      popMin r.pq = some (m, rest) → ¬ r.pq.length < r.capacity →
      ((m.priority < s.priority → (r.add s).pq = s :: rest) ∧
       (s.priority < m.priority → (r.add s).pq = r.pq))) := by
  refine ⟨?_, ?_, ?_, ?_⟩
  · rw [addAll_num_seen]; simp [SampledDataSet.new]
  · unfold SampledDataSet.num_samples
    rw [addAll_pq_length _ _ (by simp [SampledDataSet.new])]
    simp [SampledDataSet.new]
  · intro hss x
    have h := store_mem_iff hss (addAll_StoreInv c ss hss) x
    rwa [addAll_capacity] at h
  · intro r s m rest hpm hc
    constructor
    · intro hlt
      unfold SampledDataSet.add
      rw [if_neg hc, hpm]
      dsimp only
      rw [if_pos hlt]
    · intro hlt
      unfold SampledDataSet.add
      rw [if_neg hc, hpm]
      dsimp only
      rw [if_neg (lt_asymm hlt)]

/-- Witness for C1 at a concrete input: capacity 2, three adds with
priorities 3, 1, 2; the retained set is characterized as the two
highest-priority samples, and a concrete at-capacity add evicts the
minimum. -/
theorem claim_C1_witness :
    (∀ x, x ∈ ((SampledDataSet.new Unit 2).addAll
        [⟨3, 0, ()⟩, ⟨1, 1, ()⟩, ⟨2, 2, ()⟩]).pq ↔
      (x ∈ ([⟨3, 0, ()⟩, ⟨1, 1, ()⟩, ⟨2, 2, ()⟩] : List (Sample Unit)) ∧
        countHigher [⟨3, 0, ()⟩, ⟨1, 1, ()⟩, ⟨2, 2, ()⟩] x.priority < 2)) ∧
    ((⟨2, 2, [⟨1, 0, ()⟩, ⟨3, 1, ()⟩]⟩ : SampledDataSet Unit).add
        ⟨2, 5, ()⟩).pq = [⟨2, 5, ()⟩, ⟨3, 1, ()⟩] :=
  ⟨(claim_C1 2 [⟨3, 0, ()⟩, ⟨1, 1, ()⟩, ⟨2, 2, ()⟩]).2.2.1 (by decide),
   ((claim_C1 2 []).2.2.2 ⟨2, 2, [⟨1, 0, ()⟩, ⟨3, 1, ()⟩]⟩ ⟨2, 5, ()⟩
      ⟨1, 0, ()⟩ [⟨3, 1, ()⟩] (by decide) (by decide)).1 (by decide)⟩

/-- Counterexample to C1 as originally stated: at an exact priority tie the
stored set is not the `c` highest-(priority, tiebreak) samples seen.  With
capacity 1 and two adds at the equal priority 1 (tiebreaks 0 then 1), both
samples are seen and the reservoir is at capacity; the second sample is
strictly the greatest by (priority, tiebreak) — the first one's key is
below-or-equal and the two samples differ — yet the store retains the
first-arrived sample and not the second. -/
theorem claim_C1_counterexample :
    ((SampledDataSet.new Unit 1).addAll
        [⟨1, 0, ()⟩, ⟨1, 1, ()⟩]).num_seen = 2 ∧
    ((SampledDataSet.new Unit 1).addAll
        [⟨1, 0, ()⟩, ⟨1, 1, ()⟩]).pq = [⟨1, 0, ()⟩] ∧
    Sample.keyLe (⟨1, 0, ()⟩ : Sample Unit) ⟨1, 1, ()⟩ = true ∧
    (⟨1, 0, ()⟩ : Sample Unit) ≠ ⟨1, 1, ()⟩ ∧
    (⟨1, 1, ()⟩ : Sample Unit) ∉
      ((SampledDataSet.new Unit 1).addAll [⟨1, 0, ()⟩, ⟨1, 1, ()⟩]).pq := by
  decide

/-- Claim C3: merge adds the operand's total observation count in either
direction; merging with combined stored counts within capacity retains
every sample from both operands (10 and 12 into capacity 100 give 22), and
beyond capacity the retained count is capped at exactly the capacity (110
and 200 seen into capacity 100 give 100 retained, 310 seen). -/
theorem claim_C3 {α : Type} :
    (∀ a b : SampledDataSet α,
      (a.merge b).num_seen = a.num_seen + b.num_seen ∧
      (b.merge a).num_seen = a.num_seen + b.num_seen) ∧
    (∀ a b : SampledDataSet α, a.capacity = b.capacity →
      a.num_samples + b.num_samples ≤ a.capacity →
      (a.merge b).num_samples = a.num_samples + b.num_samples ∧
      (∀ s : Sample α, s ∈ a.pq ∨ s ∈ b.pq → s ∈ (a.merge b).pq)) ∧
    (∀ la lb : List (Sample α), la.length = 110 → lb.length = 200 →
      (((SampledDataSet.new α 100).addAll la).merge
        ((SampledDataSet.new α 100).addAll lb)).num_seen = 310 ∧
      (((SampledDataSet.new α 100).addAll la).merge
        ((SampledDataSet.new α 100).addAll lb)).num_samples = 100) ∧
    (∀ la lb : List (Sample α), la.length = 10 → lb.length = 12 →
      (((SampledDataSet.new α 100).addAll la).merge
        ((SampledDataSet.new α 100).addAll lb)).num_seen = 22 ∧
      (((SampledDataSet.new α 100).addAll la).merge
        ((SampledDataSet.new α 100).addAll lb)).num_samples = 22) := by
  have hnew : ∀ (n : ℕ), (SampledDataSet.new α n).pq.length ≤
      (SampledDataSet.new α n).capacity := by
    intro n; simp [SampledDataSet.new]
  have hlen : ∀ (n : ℕ) (l : List (Sample Unit)) (q : List (Sample α)),
      True := fun _ _ _ => trivial
  refine ⟨?_, ?_, ?_, ?_⟩
  · intro a b
    refine ⟨merge_num_seen a b, ?_⟩
    rw [merge_num_seen]
    omega
  · intro a b _ hsum
    unfold SampledDataSet.num_samples at *
    have hpq : (a.merge b).pq = b.pq.reverse ++ a.pq := by
      rw [merge_pq]
      exact addAll_pq_under_capacity a b.pq hsum
    constructor
    · rw [hpq]
      simp only [List.length_append, List.length_reverse]
      omega
    · intro s hs
      rw [hpq, List.mem_append]
      rcases hs with hs | hs
      · exact Or.inr hs
      · exact Or.inl (List.mem_reverse.mpr hs)
  · intro la lb hla hlb
    have hA : ((SampledDataSet.new α 100).addAll la).pq.length = 100 := by
      rw [addAll_pq_length _ _ (hnew 100), hla]
      simp [SampledDataSet.new]
    have hAc : ((SampledDataSet.new α 100).addAll la).capacity = 100 :=
      addAll_capacity _ _
    have hB : ((SampledDataSet.new α 100).addAll lb).pq.length = 100 := by
      rw [addAll_pq_length _ _ (hnew 100), hlb]
      simp [SampledDataSet.new]
    constructor
    · rw [merge_num_seen, addAll_num_seen, addAll_num_seen, hla, hlb]
      simp [SampledDataSet.new]
    · unfold SampledDataSet.num_samples
      rw [merge_pq,
        addAll_pq_length _ _ (le_of_eq (hA.trans hAc.symm)), hA, hB, hAc]
      decide
  · intro la lb hla hlb
    have hA : ((SampledDataSet.new α 100).addAll la).pq.length = 10 := by
      rw [addAll_pq_length _ _ (hnew 100), hla]
      simp [SampledDataSet.new]
    have hAc : ((SampledDataSet.new α 100).addAll la).capacity = 100 :=
      addAll_capacity _ _
    have hB : ((SampledDataSet.new α 100).addAll lb).pq.length = 12 := by
      rw [addAll_pq_length _ _ (hnew 100), hlb]
      simp [SampledDataSet.new]
    constructor
    · rw [merge_num_seen, addAll_num_seen, addAll_num_seen, hla, hlb]
      simp [SampledDataSet.new]
    · unfold SampledDataSet.num_samples
      rw [merge_pq,
        addAll_pq_length _ _ (by rw [hA, hAc]; omega), hA, hB, hAc]
      decide

/-- Witness for C3 at concrete inputs: the 110/200-seen and 10/12-seen
merge scenarios at capacity 100, replicated constant samples standing in
for the add sequences. -/
theorem claim_C3_witness :
    ((((SampledDataSet.new Unit 100).addAll
        (List.replicate 110 ⟨1, 0, ()⟩)).merge
      ((SampledDataSet.new Unit 100).addAll
        (List.replicate 200 ⟨1, 0, ()⟩))).num_seen = 310 ∧
     (((SampledDataSet.new Unit 100).addAll
        (List.replicate 110 ⟨1, 0, ()⟩)).merge
      ((SampledDataSet.new Unit 100).addAll
        (List.replicate 200 ⟨1, 0, ()⟩))).num_samples = 100) ∧
    ((((SampledDataSet.new Unit 100).addAll
        (List.replicate 10 ⟨1, 0, ()⟩)).merge
      ((SampledDataSet.new Unit 100).addAll
        (List.replicate 12 ⟨1, 0, ()⟩))).num_seen = 22 ∧
     (((SampledDataSet.new Unit 100).addAll
        (List.replicate 10 ⟨1, 0, ()⟩)).merge
      ((SampledDataSet.new Unit 100).addAll
        (List.replicate 12 ⟨1, 0, ()⟩))).num_samples = 22) :=
  ⟨claim_C3.2.2.1 _ _ (by rw [List.length_replicate])
      (by rw [List.length_replicate]),
   claim_C3.2.2.2 _ _ (by rw [List.length_replicate])
      (by rw [List.length_replicate])⟩

/-- Claim C4: `should_sample` is a pure function of the reservoir (it
returns only a boolean here, mutating nothing), true exactly when an
immediately following add of a sample with that priority would retain it:
always true under capacity, and at capacity true exactly when the priority
strictly exceeds the minimum stored priority. -/
theorem claim_C4 {α : Type} (r : SampledDataSet α) (s : Sample α)
    (h : s ∉ r.pq) :
    (r.should_sample s.priority = true ↔ s ∈ (r.add s).pq) ∧
    (r.pq.length < r.capacity → r.should_sample s.priority = true) ∧
    (∀ (m : Sample α) (rest : List (Sample α)),
      popMin r.pq = some (m, rest) → ¬ r.pq.length < r.capacity →
      (r.should_sample s.priority = true ↔ m.priority < s.priority)) := by
  refine ⟨?_, ?_, ?_⟩
  · unfold SampledDataSet.should_sample SampledDataSet.add
    by_cases hc : r.pq.length < r.capacity
    · simp [hc]
    · rw [if_neg hc, if_neg hc]
      cases hpm : popMin r.pq with
      | none => simpa using fun hs => h hs
      | some p =>
        obtain ⟨m, rest⟩ := p
        dsimp only
        by_cases hm : m.priority < s.priority
        · simp [hm]
        · simp only [hm, decide_False, if_neg hm]
          simpa using fun hs => h hs
  · intro hc
    unfold SampledDataSet.should_sample
    rw [if_pos hc]
  · intro m rest hpm hc
    unfold SampledDataSet.should_sample
    rw [if_neg hc, hpm]
    simp

/-- Witness for C4 at a concrete input (the heap test scenario): capacity 2
at capacity with priorities 3 and 1; a sample of priority 2 would override
the stored minimum, so `should_sample` is true and the add retains it. -/
theorem claim_C4_witness :
    ((⟨2, 2, [⟨3, 0, ()⟩, ⟨1, 1, ()⟩]⟩ : SampledDataSet Unit).should_sample
        (2 : ℚ) = true ↔
      (⟨2, 7, ()⟩ : Sample Unit) ∈
        ((⟨2, 2, [⟨3, 0, ()⟩, ⟨1, 1, ()⟩]⟩ : SampledDataSet Unit).add
          ⟨2, 7, ()⟩).pq) :=
  (claim_C4 ⟨2, 2, [⟨3, 0, ()⟩, ⟨1, 1, ()⟩]⟩ ⟨2, 7, ()⟩ (by decide)).1

/-- Claim C9: add and merge never compare sample values — the reservoir is
defined for an arbitrary value type with no order at all, so mutually
incomparable values (such as Python dicts) are handled totally; adding 102
values with the identical priority 1/2 to a capacity-100 reservoir leaves
exactly 100 retained samples and 102 seen. -/
theorem claim_C9 {α : Type} (f : ℕ → α) (tb : ℕ → ℕ) :
    ((SampledDataSet.new α 100).addAll
        ((List.range 102).map (fun i => ⟨1/2, tb i, f i⟩))).num_samples
      = 100 ∧
    ((SampledDataSet.new α 100).addAll
        ((List.range 102).map (fun i => ⟨1/2, tb i, f i⟩))).num_seen
      = 102 := by
  constructor
  · unfold SampledDataSet.num_samples
    rw [addAll_pq_length _ _ (by simp [SampledDataSet.new])]
    simp [SampledDataSet.new]
  · rw [addAll_num_seen]
    simp [SampledDataSet.new]

/-- Claim C10: the no-argument constructor yields capacity 100, an empty
enumeration and zero `num_seen`. -/
theorem claim_C10 (α : Type) :
    (SampledDataSet.new α).capacity = 100 ∧
    (SampledDataSet.new α).samples = [] ∧
    (SampledDataSet.new α).num_seen = 0 :=
  ⟨rfl, rfl, rfl⟩

theorem mergeTrace_nil_trees : ∀ tr : List MethodData,
    mergeTrace tr [] = chainOf tr := by
  intro tr
  induction tr with
  | nil => rfl
  | cons m rest ih =>
    show mergeSibs m (mergeTrace rest) [] = chainOf (m :: rest)
    unfold mergeSibs chainOf
    rw [ih]

theorem mergeSibs_fresh (m : MethodData) (f : List CallTree → List CallTree) :
    ∀ ch : List CallTree, (∀ t ∈ ch, t.root ≠ m) →
    mergeSibs m f ch = ch ++ [CallTree.node m 1 (f [])] := by
  intro ch
  induction ch with
  | nil => intro _; rfl
  | cons t ch ih =>
    intro h
    obtain ⟨m', cc, gch⟩ := t
    have hm : m' ≠ m := h (CallTree.node m' cc gch)
      (List.mem_cons_self _ _)
    show (if m' = m then _ else _) = _
    rw [if_neg hm, ih (fun t ht => h t (List.mem_cons_of_mem _ ht))]
    rfl

theorem mergeTrace_fresh (m : MethodData) (rest : List MethodData)
    (ch : List CallTree) (h : ∀ t ∈ ch, t.root ≠ m) :
    mergeTrace (m :: rest) ch = ch ++ chainOf (m :: rest) := by
  show mergeSibs m (mergeTrace rest) ch = _
  rw [mergeSibs_fresh m _ ch h, mergeTrace_nil_trees]
  rfl

theorem lookupBucket_updateBucket :
    ∀ (bs : List (String × List CallTree)) (name : String)
      (v trees : List CallTree), lookupBucket bs name = some v →
    lookupBucket (updateBucket bs name trees) name = some trees := by
  intro bs
  induction bs with
  | nil => intro name v trees h; simp [lookupBucket] at h
  | cons b bs ih =>
    intro name v trees h
    obtain ⟨k, w⟩ := b
    by_cases hk : k = name
    · unfold updateBucket
      rw [if_pos hk]
      unfold lookupBucket
      rw [if_pos hk]
    · unfold updateBucket
      rw [if_neg hk]
      unfold lookupBucket
      rw [if_neg hk]
      unfold lookupBucket at h
      rw [if_neg hk] at h
      exact ih name v trees h

theorem lookupFinished_appendFinished :
    ∀ (fs : List (String × List ProfileSession)) (app : String)
      (s : ProfileSession),
    lookupFinished (appendFinished fs app s) app =
      lookupFinished fs app ++ [s] := by
  intro fs
  induction fs with
  | nil =>
    intro app s
    show lookupFinished [(app, [s])] app = [] ++ [s]
    unfold lookupFinished
    rw [if_pos rfl]
    rfl
  | cons e fs ih =>
    intro app s
    obtain ⟨k, v⟩ := e
    by_cases hk : k = app
    · unfold appendFinished
      rw [if_pos hk]
      unfold lookupFinished
      rw [if_pos hk, if_pos hk]
    · unfold appendFinished
      rw [if_neg hk]
      unfold lookupFinished
      rw [if_neg hk, if_neg hk]
      exact ih app s

theorem lookupFinished_removeFinished :
    ∀ (fs : List (String × List ProfileSession)) (app : String),
    lookupFinished (removeFinished fs app) app = [] := by
  intro fs
  induction fs with
  | nil => intro app; rfl
  | cons e fs ih =>
    intro app
    obtain ⟨k, v⟩ := e
    by_cases hk : k = app
    · unfold removeFinished
      rw [if_pos hk]
      exact ih app
    · unfold removeFinished
      rw [if_neg hk]
      unfold lookupFinished
      rw [if_neg hk]
      exact ih app

theorem length_filterMap_of_isSome {β γ : Type} (f : β → Option γ) :
    ∀ l : List β, (∀ x ∈ l, (f x).isSome) →
    (l.filterMap f).length = l.length := by
  intro l
  induction l with
  | nil => intro _; rfl
  | cons x l ih =>
    intro h
    cases hfx : f x with
    | none =>
      have := h x (List.mem_cons_self _ _)
      rw [hfx] at this
      simp at this
    | some y =>
      rw [List.filterMap_cons, hfx]
      simp only [List.length_cons]
      rw [ih (fun t ht => h t (List.mem_cons_of_mem _ ht))]

theorem profile_data_isSome (s : ProfileSession)
    (h : s.state = SessionState.FINISHED) : s.profile_data.isSome := by
  unfold ProfileSession.profile_data
  rw [h]
  rfl

theorem root_mem_allRoots :
    ∀ (bs : List (String × List CallTree)) (b : String × List CallTree)
      (t : CallTree), b ∈ bs → t ∈ b.2 → t.root ∈ allRoots bs := by
  intro bs
  induction bs with
  | nil => intro b t hb; exact absurd hb (List.not_mem_nil b)
  | cons e bs ih =>
    intro b t hb ht
    show t.root ∈ e.2.map CallTree.root ++ allRoots bs
    rcases List.mem_cons.mp hb with rfl | hb
    · exact List.mem_append_left _ (List.mem_map_of_mem CallTree.root ht)
    · exact List.mem_append_right _ (ih b t hb ht)

theorem threadCount_pos (bs : List (String × List CallTree))
    (b : String × List CallTree) (hb : b ∈ bs) (hne : b.2 ≠ []) :
    1 ≤ threadCount bs := by
  obtain ⟨t, ts, hts⟩ := List.exists_cons_of_ne_nil hne
  have ht : t ∈ b.2 := by rw [hts]; exact List.mem_cons_self t ts
  have hmem : t.root ∈ (allRoots bs).dedup :=
    List.mem_dedup.mpr (root_mem_allRoots bs b t hb ht)
  have := List.ne_nil_of_mem hmem
  unfold threadCount
  have hlen := List.length_pos.mpr this
  omega

theorem profile_data_finished (s : ProfileSession)
    (h : s.state = SessionState.FINISHED) :
    s.profile_data = some {
      profile_id := s.profile_id, start_time := s.start_time,
      stop_time := s.stop_time, sample_count := 0,
      profile_json := JVal.serialize (JVal.jobj (flatBuckets s.call_buckets)),
      thread_count := threadCount s.call_buckets,
      non_runnable_thread_count := 0, xray_id := s.xray_id } := by
  unfold ProfileSession.profile_data
  rw [h]

/-- Claim C2: a RUNNING session yields no profile data; a FINISHED one
yields a single record (id, start, stop, 0, blob, thread_count, 0, xray)
whose sample count is 0, whose seventh field is 0, whose times and xray
value pass through the construction inputs (so start < stop whenever the
supplied instants are so ordered), whose thread count is the number of
distinct root identities across buckets (at least 1 once any sample is
recorded), and whose blob decodes to the compact JSON of the bucket-name →
flattened-root-trees mapping — the literal empty-object text for a session
finished with no samples. -/
theorem claim_C2 (s : ProfileSession) :
    (s.state = SessionState.RUNNING → s.profile_data = none) ∧
    (s.state = SessionState.FINISHED → ∃ r : ProfileRecord,
      s.profile_data = some r ∧
      r.profile_id = s.profile_id ∧ r.start_time = s.start_time ∧
      r.stop_time = s.stop_time ∧ r.sample_count = 0 ∧
      r.non_runnable_thread_count = 0 ∧ r.xray_id = s.xray_id ∧
      (s.start_time < s.stop_time → r.start_time < r.stop_time) ∧
      r.thread_count = threadCount s.call_buckets ∧
      ((∃ b ∈ s.call_buckets, b.2 ≠ []) → 1 ≤ r.thread_count) ∧
      r.profile_json =
        JVal.serialize (JVal.jobj (flatBuckets s.call_buckets))) ∧
    (∀ (pid : ℤ) (st now : ℚ) (xr : Option ℤ), ∃ r : ProfileRecord,
      (finishSession (ProfileSession.new pid st now xr)).profile_data
        = some r ∧ r.profile_json = "\x7b\x7d") ∧
    (∀ (pid : ℤ) (st now : ℚ), ∃ r : ProfileRecord,
      ((finishSession (ProfileSession.new pid st now)).update_call_tree
          "REQUEST" [method_a, method_b, method_c]).2.profile_data
        = some r ∧
      r.profile_id = pid ∧ r.sample_count = 0 ∧ r.thread_count = 1 ∧
      r.non_runnable_thread_count = 0 ∧ r.xray_id = none ∧
      r.start_time = now ∧ r.stop_time = st ∧
      r.profile_json = "\x7b\"REQUEST\":[[[\"file_a\",\"@method_a#10\",10],1,0,[[[\"file_b\",\"@method_b#20\",20],1,0,[[[\"file_c\",\"@method_c#25\",25],1,0,[]]]]]]]\x7d") := by
  refine ⟨?_, ?_, ?_, ?_⟩
  · intro h
    unfold ProfileSession.profile_data
    rw [h]
  · intro h
    refine ⟨_, profile_data_finished s h, rfl, rfl, rfl, rfl, rfl, rfl,
      fun hlt => hlt, rfl, ?_, rfl⟩
    exact fun ⟨b, hb, hne⟩ => threadCount_pos s.call_buckets b hb hne
  · intro pid st now xr
    exact ⟨_, rfl, rfl⟩
  · intro pid st now
    exact ⟨_, rfl, rfl, rfl, rfl, rfl, rfl, rfl, rfl, rfl⟩

/-- Witness for C2: on a concrete session, RUNNING yields no data, and the
finished empty session's blob decodes to the literal empty-object text. -/
theorem claim_C2_witness :
    (ProfileSession.new (-1) 2 0).profile_data = none ∧
    (∃ r : ProfileRecord,
      (finishSession (ProfileSession.new (-1) 2 0)).profile_data = some r ∧
      r.sample_count = 0 ∧ r.non_runnable_thread_count = 0) ∧
    (∃ r : ProfileRecord,
      (finishSession (ProfileSession.new (-1) 2 0)).profile_data = some r ∧
      r.profile_json = "\x7b\x7d") := by
  refine ⟨(claim_C2 (ProfileSession.new (-1) 2 0)).1 rfl, ?_,
    (claim_C2 (ProfileSession.new (-1) 2 0)).2.2.1 (-1) 2 0 none⟩
  obtain ⟨r, h1, -, -, -, h4, h5, -⟩ :=
    (claim_C2 (finishSession (ProfileSession.new (-1) 2 0))).2.1 rfl
  exact ⟨r, h1, h4, h5⟩

/-- Claim C5: merging the stack traces [a,b,c] and then [a,d,c] into the
tree rooted at a yields root call count 2 with the two children b and d in
first-creation order, each with call count 1 and a single grandchild c with
call count 1; flatten renders this shape recursively with children in
first-seen order; and a trace whose root matches no existing tree creates a
fresh branch appended after the existing trees, which stay untouched. -/
theorem claim_C5 :
    (∀ a b c d : MethodData, b ≠ d →
      ((CallTree.new a).merge_stack [a, b, c]).merge_stack [a, d, c] =
        CallTree.node a 2 [CallTree.node b 1 [CallTree.node c 1 []],
          CallTree.node d 1 [CallTree.node c 1 []]]) ∧
    ((((CallTree.new method_a).merge_stack
        [method_a, method_b, method_c]).merge_stack
        [method_a, method_d, method_c]).flatten =
      JVal.jarr [JVal.jarr [JVal.jstr "file_a", JVal.jstr "@method_a#10",
          JVal.jnum 10], JVal.jnum 2, JVal.jnum 0,
        JVal.jarr [
          JVal.jarr [JVal.jarr [JVal.jstr "file_b",
            JVal.jstr "@method_b#20", JVal.jnum 20], JVal.jnum 1,
            JVal.jnum 0,
            JVal.jarr [JVal.jarr [JVal.jarr [JVal.jstr "file_c",
              JVal.jstr "@method_c#25", JVal.jnum 25], JVal.jnum 1,
              JVal.jnum 0, JVal.jarr []]]],
          JVal.jarr [JVal.jarr [JVal.jstr "file_d",
            JVal.jstr "@method_d#15", JVal.jnum 15], JVal.jnum 1,
            JVal.jnum 0,
            JVal.jarr [JVal.jarr [JVal.jarr [JVal.jstr "file_c",
              JVal.jstr "@method_c#25", JVal.jnum 25], JVal.jnum 1,
              JVal.jnum 0, JVal.jarr []]]]]]) ∧
    (∀ (ch : List CallTree) (m : MethodData) (rest : List MethodData),
      (∀ t ∈ ch, t.root ≠ m) →
      mergeTrace (m :: rest) ch = ch ++ chainOf (m :: rest)) := by
  refine ⟨?_, rfl, fun ch m rest h => mergeTrace_fresh m rest ch h⟩
  intro a b c d hbd
  show CallTree.node a 2
      (mergeSibs d (mergeTrace [c])
        [CallTree.node b 1 [CallTree.node c 1 []]]) = _
  simp [mergeSibs, mergeTrace, hbd]

/-- Witness for C5 at the test's concrete frame identities. -/
theorem claim_C5_witness :
    ((CallTree.new method_a).merge_stack
        [method_a, method_b, method_c]).merge_stack
        [method_a, method_d, method_c] =
      CallTree.node method_a 2
        [CallTree.node method_b 1 [CallTree.node method_c 1 []],
         CallTree.node method_d 1 [CallTree.node method_c 1 []]] ∧
    mergeTrace [method_b, method_d, method_c]
        (mergeTrace [method_a, method_b, method_c] []) =
      mergeTrace [method_a, method_b, method_c] [] ++
        chainOf [method_b, method_d, method_c] :=
  ⟨claim_C5.1 method_a method_b method_c method_d (by decide),
   claim_C5.2.2 (mergeTrace [method_a, method_b, method_c] []) method_b
     [method_d, method_c] (by decide)⟩

/-- Claim C6: the manager's lifecycle — starting while a full session
exists returns false with no side effects, starting otherwise returns true
and exposes a RUNNING session; stopping clears the slot and appends the
now-FINISHED session exactly once to the application's queue;
`profile_data` yields one record per queued finished session and drains
the queue, so an immediate second call yields nothing, and it yields
nothing while only a RUNNING session exists. -/
theorem claim_C6 :
    (∀ (m : ProfileSessionManager) (app : String) (pid : ℤ) (st now : ℚ),
      m.full_profile_session ≠ none →
      m.start_profile_session app pid st now = (false, m)) ∧
    (∀ (m : ProfileSessionManager) (app : String) (pid : ℤ) (st now : ℚ),
      m.full_profile_session = none →
      (m.start_profile_session app pid st now).1 = true ∧
      ∃ s, (m.start_profile_session app pid st now).2.full_profile_session
          = some s ∧ s.state = SessionState.RUNNING) ∧
    (∀ (m : ProfileSessionManager) (app : String) (s : ProfileSession),
      m.full_profile_session = some s →
      (m.stop_profile_session app).full_profile_session = none ∧
      lookupFinished (m.stop_profile_session app).finished_sessions app =
        lookupFinished m.finished_sessions app ++ [finishSession s] ∧
      (finishSession s).state = SessionState.FINISHED) ∧
    (∀ (m : ProfileSessionManager) (app : String),
      (∀ s ∈ lookupFinished m.finished_sessions app,
        s.state = SessionState.FINISHED) →
      (m.profile_data app).1.length =
        (lookupFinished m.finished_sessions app).length) ∧
    (∀ (m : ProfileSessionManager) (app : String),
      lookupFinished ((m.profile_data app).2).finished_sessions app = [] ∧
      (((m.profile_data app).2).profile_data app).1 = []) ∧
    (∀ (app : String) (pid : ℤ) (st now : ℚ),
      (((ProfileSessionManager.new.start_profile_session
          app pid st now).2).profile_data app).1 = []) := by
  refine ⟨?_, ?_, ?_, ?_, ?_, ?_⟩
  · intro m app pid st now hne
    unfold ProfileSessionManager.start_profile_session
    cases hm : m.full_profile_session with
    | none => exact absurd hm hne
    | some s => rfl
  · intro m app pid st now hm
    unfold ProfileSessionManager.start_profile_session
    rw [hm]
    exact ⟨rfl, ProfileSession.new pid st now, rfl, rfl⟩
  · intro m app s hm
    unfold ProfileSessionManager.stop_profile_session
    rw [hm]
    exact ⟨rfl, lookupFinished_appendFinished _ app _, rfl⟩
  · intro m app h
    show ((lookupFinished m.finished_sessions app).filterMap
        ProfileSession.profile_data).length = _
    exact length_filterMap_of_isSome _ _
      (fun s hs => profile_data_isSome s (h s hs))
  · intro m app
    constructor
    · show lookupFinished (removeFinished m.finished_sessions app) app = []
      exact lookupFinished_removeFinished _ app
    · show (lookupFinished
          (removeFinished m.finished_sessions app) app).filterMap
          ProfileSession.profile_data = []
      rw [lookupFinished_removeFinished]
      rfl
  · intro app pid st now
    rfl

/-- Witness for C6: the concrete start/stop/drain flow of the shipped
manager tests. -/
theorem claim_C6_witness :
    (((ProfileSessionManager.new.start_profile_session
        "app" (-1) 2 0).2).start_profile_session "app" (-1) 2 0 =
      (false, (ProfileSessionManager.new.start_profile_session
        "app" (-1) 2 0).2)) ∧
    ((((ProfileSessionManager.new.start_profile_session
        "app" (-1) 2 0).2).stop_profile_session "app").full_profile_session
      = none ∧
     lookupFinished (((ProfileSessionManager.new.start_profile_session
        "app" (-1) 2 0).2).stop_profile_session "app").finished_sessions
        "app" =
      lookupFinished ((ProfileSessionManager.new.start_profile_session
        "app" (-1) 2 0).2).finished_sessions "app" ++
        [finishSession (ProfileSession.new (-1) 2 0)] ∧
     (finishSession (ProfileSession.new (-1) 2 0)).state =
        SessionState.FINISHED) ∧
    (((((ProfileSessionManager.new.start_profile_session
        "app" (-1) 2 0).2).stop_profile_session "app").profile_data
        "app").1.length =
      (lookupFinished (((ProfileSessionManager.new.start_profile_session
        "app" (-1) 2 0).2).stop_profile_session "app").finished_sessions
        "app").length) := by
  refine ⟨claim_C6.1 _ "app" (-1) 2 0 (fun h => Option.noConfusion h),
    claim_C6.2.2.1 _ "app" (ProfileSession.new (-1) 2 0) rfl,
    claim_C6.2.2.2.1 _ "app" ?_⟩
  intro s hs
  rw [List.eq_of_mem_singleton hs]
  rfl

/-- Claim C7: `update_call_tree` on an unrecognized bucket returns false
and leaves the session untouched (no bucket is created); on a recognized
bucket (such as REQUEST) it finds-or-creates the tree rooted at the trace
head, merges the trace, and returns true — independently of the session
state, so a FINISHED session still accepts samples that then appear in its
profile data. -/
theorem claim_C7 (s : ProfileSession) (bucket : String)
    (tr : List MethodData) :
    (lookupBucket s.call_buckets bucket = none →
      s.update_call_tree bucket tr = (false, s)) ∧
    (∀ trees : List CallTree,
      lookupBucket s.call_buckets bucket = some trees →
      (s.update_call_tree bucket tr).1 = true ∧
      lookupBucket ((s.update_call_tree bucket tr).2).call_buckets bucket
        = some (mergeTrace tr trees) ∧
      ((s.update_call_tree bucket tr).2).state = s.state) ∧
    (∀ (pid : ℤ) (st now : ℚ),
      lookupBucket (ProfileSession.new pid st now).call_buckets "ABCD"
        = none ∧
      lookupBucket (ProfileSession.new pid st now).call_buckets "REQUEST"
        = some []) ∧
    (s.state = SessionState.FINISHED →
      ∀ trees : List CallTree,
      lookupBucket s.call_buckets bucket = some trees →
      ∃ r : ProfileRecord,
        ((s.update_call_tree bucket tr).2).profile_data = some r ∧
        r.profile_json = JVal.serialize (JVal.jobj (flatBuckets
          (updateBucket s.call_buckets bucket (mergeTrace tr trees))))) := by
  refine ⟨?_, ?_, ?_, ?_⟩
  · intro h
    unfold ProfileSession.update_call_tree
    rw [h]
  · intro trees h
    have hupd : s.update_call_tree bucket tr = (true, { s with call_buckets := updateBucket s.call_buckets bucket (mergeTrace tr trees) }) := by
      unfold ProfileSession.update_call_tree
      rw [h]
    rw [hupd]
    exact ⟨rfl, lookupBucket_updateBucket _ _ trees _ h, rfl⟩
  · intro pid st now
    exact ⟨rfl, rfl⟩
  · intro hst trees h
    have hupd : s.update_call_tree bucket tr = (true, { s with call_buckets := updateBucket s.call_buckets bucket (mergeTrace tr trees) }) := by
      unfold ProfileSession.update_call_tree
      rw [h]
    rw [hupd]
    exact ⟨_, profile_data_finished _ hst, rfl⟩

/-- Witness for C7: the unrecognized bucket ABCD is rejected without
change, REQUEST is accepted on a FINISHED session, and the merged sample
appears in the profile data as the test's expected JSON. -/
theorem claim_C7_witness :
    ((finishSession (ProfileSession.new (-1) 2 0)).update_call_tree "ABCD"
        [method_a, method_b, method_c] =
      (false, finishSession (ProfileSession.new (-1) 2 0))) ∧
    (((finishSession (ProfileSession.new (-1) 2 0)).update_call_tree
        "REQUEST" [method_a, method_b, method_c]).1 = true) ∧
    (∃ r : ProfileRecord,
      (((finishSession (ProfileSession.new (-1) 2 0)).update_call_tree
          "REQUEST" [method_a, method_b, method_c]).2).profile_data
        = some r ∧
      r.profile_json = JVal.serialize (JVal.jobj (flatBuckets
        (updateBucket (finishSession (ProfileSession.new (-1) 2 0)).call_buckets
          "REQUEST"
          (mergeTrace [method_a, method_b, method_c] []))))) :=
  ⟨(claim_C7 (finishSession (ProfileSession.new (-1) 2 0)) "ABCD"
      [method_a, method_b, method_c]).1 rfl,
   ((claim_C7 (finishSession (ProfileSession.new (-1) 2 0)) "REQUEST"
      [method_a, method_b, method_c]).2.1 [] rfl).1,
   (claim_C7 (finishSession (ProfileSession.new (-1) 2 0)) "REQUEST"
      [method_a, method_b, method_c]).2.2.2 rfl [] rfl⟩

/-- Claim C8: flatten of a fresh tree rooted at (file_a, method_a, 10, 10)
is [["file_a","@method_a#10",10], 0, 0, []]; in general the rendered label
is "@<func>#<line>" when the call-site line equals the definition line and
"<func>#<line>" otherwise, and the filename stays a separate component of
the identity triple, never concatenated into the label. -/
theorem claim_C8 :
    (CallTree.new method_a).flatten =
      JVal.jarr [JVal.jarr [JVal.jstr "file_a", JVal.jstr "@method_a#10",
        JVal.jnum 10], JVal.jnum 0, JVal.jnum 0, JVal.jarr []] ∧
    (∀ m : MethodData, m.func_line = m.exec_line →
      m.label = "@" ++ m.func_name ++ "#" ++ toString m.func_line) ∧
    (∀ m : MethodData, m.func_line ≠ m.exec_line →
      m.label = m.func_name ++ "#" ++ toString m.func_line) ∧
    (∀ (m : MethodData) (cc : ℕ) (ch : List CallTree),
      (CallTree.node m cc ch).flatten =
        JVal.jarr [JVal.jarr [JVal.jstr m.filename, JVal.jstr m.label,
          JVal.jnum m.exec_line], JVal.jnum cc, JVal.jnum 0,
          JVal.jarr (CallTree.flattenList ch)]) := by
  refine ⟨rfl, ?_, ?_, fun m cc ch => rfl⟩
  · intro m h
    unfold MethodData.label
    rw [if_pos h]
  · intro m h
    unfold MethodData.label
    rw [if_neg h]

/-- Witness for C8: the label rules evaluated at a recursive re-entry frame
and at an ordinary frame. -/
theorem claim_C8_witness :
    MethodData.label method_a = "@" ++ "method_a" ++ "#" ++ toString 10 ∧
    MethodData.label ⟨"f", "g", 10, 20⟩ = "g" ++ "#" ++ toString 10 :=
  ⟨claim_C8.2.1 method_a (by decide),
   claim_C8.2.2.1 ⟨"f", "g", 10, 20⟩ (by decide)⟩

end NRAgent
